import Mathlib

/-!
Verification of the generator combinator library (src/generator.ts).

The sequential combinators are embedded as structurally recursive functions
on `List`, mirroring the generator loops one-for-one.  The suspending
(async) combinators are embedded as monadic functions over an arbitrary
monad `m`, with one bind per `await` in the source.  Pull-count claims use
an instrumented step-machine model, and error-propagation claims use an
`Except`-valued model of throwing step functions.
-/

set_option autoImplicit false

namespace Generator

universe u v w

variable {α : Type u} {β : Type v} {γ : Type w} {σ : Type w}

/-- Embeds `map` (src/generator.ts): for each value of the iterator, yield
`fn value`. -/
def map (iter : List α) (fn : α → β) : List β :=
  match iter with
  | [] => []
  | value :: rest => fn value :: map rest fn

/-- Embeds `filter`: yield the values on which the predicate returns true. -/
def filter (iter : List α) (predicate : α → Bool) : List α :=
  match iter with
  | [] => []
  | value :: rest =>
    if predicate value then value :: filter rest predicate
    else filter rest predicate

/-- Embeds `reduce`: thread the accumulator through every value, returning
the final accumulator. -/
def reduce (iter : List α) (fn : β → α → β) (initial : β) : β :=
  match iter with
  | [] => initial
  | value :: rest => reduce rest fn (fn initial value)

/-- Loop body of `scan`: after the initial yield, each upstream value
updates the accumulator and the update is yielded. -/
def scanGo (fn : β → α → β) (acc : β) (iter : List α) : List β :=
  match iter with
  | [] => []
  | value :: rest =>
    let acc2 := fn acc value
    acc2 :: scanGo fn acc2 rest

/-- Embeds `scan`: `yield acc` happens before the loop, so the initial
accumulator is always the first element. -/
def scan (iter : List α) (fn : β → α → β) (initial : β) : List β :=
  initial :: scanGo fn initial iter

/-- Embeds `concat` (variadic in the source; the argument array is a list):
yield every element of every argument iterable, in argument order. -/
def concat (iters : List (List α)) : List α :=
  match iters with
  | [] => []
  | inner :: rest => inner ++ concat rest

/-- Embeds `flatten`: yield every element of every inner iterable. -/
def flatten (iter : List (List α)) : List α :=
  match iter with
  | [] => []
  | inner :: rest => inner ++ flatten rest

/-- Embeds `flatMap`: for each value, yield every element of `fn value`. -/
def flatMap (iter : List α) (fn : α → List β) : List β :=
  match iter with
  | [] => []
  | value :: rest => fn value ++ flatMap rest fn

/-- Model of the TypeScript result type `U | null | undefined` used by
`filterMap`: either a present value, or one of the two nullish values. -/
inductive JSOpt (β : Type v) : Type v
  | val (b : β)
  | vnull
  | vundefined
deriving DecidableEq, Repr

/-- The loose inequality `result != null` of the source: true exactly when
the result is neither `null` nor `undefined`. -/
def JSOpt.nonNullish : JSOpt β → Bool
  | .val _ => true
  | .vnull => false
  | .vundefined => false

/-- The present value, if any. -/
def JSOpt.toOption : JSOpt β → Option β
  | .val b => some b
  | .vnull => none
  | .vundefined => none

/-- Embeds `filterMap`: apply `fn`; yield the result exactly when
`result != null`. -/
def filterMap (iter : List α) (fn : α → JSOpt β) : List β :=
  match iter with
  | [] => []
  | value :: rest =>
    match fn value with
    | .val result => result :: filterMap rest fn
    | .vnull => filterMap rest fn
    | .vundefined => filterMap rest fn

/-- Loop of `take`, with the running `count` made explicit: on each
iteration the loop pulls a value, breaks if `count >= n`, otherwise yields
the value and increments `count`.  `n` is an `Int` because the source's
`number` argument may be negative. -/
def takeGo (n : Int) (iter : List α) (count : Int) : List α :=
  match iter with
  | [] => []
  | value :: rest =>
    if count ≥ n then [] else value :: takeGo n rest (count + 1)

/-- Embeds `take`: the count starts at 0. -/
def take (iter : List α) (n : Int) : List α :=
  takeGo n iter 0

/-- Embeds `takeWhile`: yield values until the predicate first fails; the
failing value is consumed but not yielded. -/
def takeWhile (iter : List α) (predicate : α → Bool) : List α :=
  match iter with
  | [] => []
  | value :: rest =>
    if predicate value then value :: takeWhile rest predicate else []

/-- Loop of `dedupe` with the `seen` set made explicit (modelled as the
list of keys added so far, most recent first; `Set.has` is membership and
`Set.add` is cons). -/
def dedupeGo (getKey : α → String) (seen : List String) (iter : List α) :
    List α :=
  match iter with
  | [] => []
  | value :: rest =>
    let key := getKey value
    if seen.contains key then dedupeGo getKey seen rest
    else value :: dedupeGo getKey (key :: seen) rest

/-- Embeds `dedupe`: the `seen` set starts empty. -/
def dedupe (iter : List α) (getKey : α → String) : List α :=
  dedupeGo getKey [] iter

/-! ### Basic equations relating the embedded combinators to library
functions, used by several claims. -/

theorem map_eq_list_map (l : List α) (fn : α → β) : map l fn = l.map fn := by
  induction l with
  | nil => rfl
  | cons x xs ih => simp [map, ih]

theorem filter_eq_list_filter (l : List α) (p : α → Bool) :
    filter l p = l.filter p := by
  induction l with
  | nil => rfl
  | cons x xs ih =>
    by_cases h : p x <;> simp [filter, List.filter, h, ih]

theorem scan_eq_scanl (l : List α) (fn : β → α → β) (i : β) :
    scan l fn i = List.scanl fn i l := by
  suffices h : ∀ (acc : β), acc :: scanGo fn acc l = List.scanl fn acc l by
    exact h i
  induction l with
  | nil => intro acc; rfl
  | cons x xs ih =>
    intro acc
    simp only [scanGo, List.scanl]
    exact congrArg (acc :: ·) (ih (fn acc x))

theorem takeGo_eq_list_take (l : List α) (n count : Int) :
    takeGo n l count = l.take (n - count).toNat := by
  induction l generalizing count with
  | nil => simp [takeGo]
  | cons x xs ih =>
    by_cases h : count ≥ n
    · have h0 : (n - count).toNat = 0 := by omega
      simp [takeGo, h, h0]
    · have h1 : (n - count).toNat = (n - (count + 1)).toNat + 1 := by omega
      simp [takeGo, h, h1, List.take, ih]

theorem take_eq_list_take (l : List α) (n : Int) :
    take l n = l.take n.toNat := by
  have := takeGo_eq_list_take l n 0
  simpa [take] using this

theorem takeWhile_eq_list_takeWhile (l : List α) (p : α → Bool) :
    takeWhile l p = l.takeWhile p := by
  induction l with
  | nil => rfl
  | cons x xs ih =>
    by_cases h : p x <;> simp [takeWhile, List.takeWhile, h, ih]

/-! ### Pull-machine model

Generators are pull-driven: each downstream `next()` call resumes the
generator body, which may call `next()` on its upstream iterator.  To
reason about how many upstream pulls a combinator performs, we model an
iterator as a state-passing step function and instrument the base source
so that its state counts its own `next()` calls. -/

/-- A pull-based iterator with explicit state: one `next()` call maps the
state to an optional value (`none` means done) plus the updated state. -/
def PullIter (σ : Type w) (α : Type u) : Type (max w u) :=
  σ → Option α × σ

/-- An unbounded upstream source: the state is the number of `next()`
calls made so far, so the final state counts upstream pulls. -/
def src (u : Nat → α) : PullIter Nat α :=
  fun i => (some (u i), i + 1)

/-- Drive an iterator: make downstream `next()` requests until either
`fuel` values have been received or the iterator reports done, returning
the received values and the final state. -/
def drainP (it : PullIter σ α) (fuel : Nat) (s : σ) : List α × σ :=
  match fuel with
  | 0 => ([], s)
  | fuel + 1 =>
    match it s with
    | (none, s2) => ([], s2)
    | (some v, s2) =>
      let r := drainP it fuel s2
      (v :: r.1, r.2)

/-- Step machine of `take` (src/generator.ts lines 114-121).  Each
resumption of the generator body first lets the `for...of` loop pull the
next upstream value, and only then checks `count >= n` and breaks; so the
upstream pull happens even on the terminating resumption. -/
def takeP (it : PullIter σ α) (n : Int) : PullIter (σ × Int) α :=
  fun s =>
    match it s.1 with
    | (none, s2) => (none, (s2, s.2))
    | (some v, s2) =>
      if s.2 ≥ n then (none, (s2, s.2)) else (some v, (s2, s.2 + 1))

/-- Step machine of `takeWhile`: pull one upstream value, test it, yield
it if accepted, otherwise terminate (the rejected value is discarded). -/
def takeWhileP (it : PullIter σ α) (predicate : α → Bool) : PullIter σ α :=
  fun s =>
    match it s with
    | (none, s2) => (none, s2)
    | (some v, s2) => if predicate v then (some v, s2) else (none, s2)

/-- Step machine of `map`: pull one upstream value and transform it. -/
def mapP (it : PullIter σ α) (fn : α → β) : PullIter σ β :=
  fun s =>
    match it s with
    | (none, s2) => (none, s2)
    | (some v, s2) => (some (fn v), s2)

/-- Inner loop of the `filter` step machine: pull upstream values until
one is accepted or upstream is done.  In the source this loop is unbounded;
`fuel` is an artificial bound on the loop (theorems supply enough fuel for
it never to be hit). -/
def filterGoP (it : PullIter σ α) (predicate : α → Bool) (fuel : Nat)
    (s : σ) : Option α × σ :=
  match fuel with
  | 0 => (none, s)
  | fuel + 1 =>
    match it s with
    | (none, s2) => (none, s2)
    | (some v, s2) =>
      if predicate v then (some v, s2) else filterGoP it predicate fuel s2

/-- Step machine of `filter`: each downstream request runs the inner pull
loop once. -/
def filterP (it : PullIter σ α) (predicate : α → Bool) (fuel : Nat) :
    PullIter σ α :=
  fun s => filterGoP it predicate fuel s

/-! ### Claim theorems: scan (C4), take (C5), flatMap (C8) -/

/-- C4: `scan(s, fn, initial)` yields `initial` as its first element
unconditionally (even on an empty source, where the output is exactly
`[initial]`), then one updated accumulator per upstream element (it equals
the left scan of the source), and the collected output has length
`len(s) + 1`. -/
theorem scan_spec (l : List α) (fn : β → α → β) (i : β) :
    scan l fn i = List.scanl fn i l ∧
    (scan l fn i).length = l.length + 1 ∧
    (scan l fn i).head? = some i ∧
    scan ([] : List α) fn i = [i] := by
  refine ⟨scan_eq_scanl l fn i, ?_, rfl, rfl⟩
  rw [scan_eq_scanl]
  exact List.length_scanl i l

/-- C5: `collect(take(s, n))` is the first `min(n, len(s))` elements of
`collect(s)` in order (that is, `List.take` of the nonnegative part of
`n`); `take(s, 0)` and `take([], 5)` yield nothing, and any `n ≤ 0` yields
nothing. -/
theorem take_spec (l : List α) (n : Int) :
    take l n = l.take n.toNat ∧
    (n ≤ 0 → take l n = []) ∧
    take l 0 = [] ∧
    take ([] : List α) 5 = [] := by
  refine ⟨take_eq_list_take l n, ?_, ?_, rfl⟩
  · intro h
    have h0 : n.toNat = 0 := by omega
    simp [take_eq_list_take, h0]
  · simp [take_eq_list_take]

/-- Witness for C5 at a concrete negative `n`. -/
theorem take_spec_witness :
    ((-2 : Int) ≤ 0) ∧ take [10, 20, 30] (-2 : Int) = [] :=
  ⟨by decide, (take_spec [10, 20, 30] (-2)).2.1 (by decide)⟩

/-- C8: `flatMap(s, fn)` yields exactly the element sequence of
`flatten(map(s, fn))`: the concatenation, in upstream order, of `fn`
applied to each element, with empty inner results contributing nothing. -/
theorem flatMap_spec (l : List α) (fn : α → List β) :
    flatMap l fn = flatten (map l fn) ∧
    (∀ (x : α) (xs : List α), fn x = [] →
      flatMap (x :: xs) fn = flatMap xs fn) := by
  constructor
  · induction l with
    | nil => rfl
    | cons x xs ih => simp [flatMap, flatten, map, ih]
  · intro x xs h
    simp [flatMap, h]

/-- Witness for C8: an empty inner result contributes nothing. -/
theorem flatMap_spec_witness :
    (fun (n : Nat) => List.replicate n n) 0 = [] ∧
    flatMap [0, 2] (fun (n : Nat) => List.replicate n n) =
      flatMap [2] (fun (n : Nat) => List.replicate n n) :=
  ⟨rfl, (flatMap_spec [0, 2] (fun n => List.replicate n n)).2 0 [2] rfl⟩

/-! ### Claim C6: takeWhile -/

theorem contains_iff_mem_helper (s : List String) (k : String) :
    s.contains k = true ↔ k ∈ s := by
  simp [List.contains_iff_exists_mem_beq]

theorem drainP_takeWhileP_src (u : Nat → α) (p : α → Bool) (j c fuel : Nat)
    (hacc : ∀ i, i < j → p (u (c + i)) = true)
    (hrej : p (u (c + j)) = false)
    (hfuel : j + 1 ≤ fuel) :
    drainP (takeWhileP (src u) p) fuel c =
      ((List.range j).map (fun i => u (c + i)), c + j + 1) := by
  induction j generalizing c fuel with
  | zero =>
    obtain ⟨f, rfl⟩ : ∃ f, fuel = f + 1 := ⟨fuel - 1, by omega⟩
    have hr : p (u c) = false := by simpa using hrej
    have step : takeWhileP (src u) p c = (none, c + 1) := by
      simp [takeWhileP, src, hr]
    simp [drainP, step]
  | succ j ih =>
    obtain ⟨f, rfl⟩ : ∃ f, fuel = f + 1 := ⟨fuel - 1, by omega⟩
    have h0 : p (u c) = true := by simpa using hacc 0 (Nat.succ_pos j)
    have step : takeWhileP (src u) p c = (some (u c), c + 1) := by
      simp [takeWhileP, src, h0]
    have ihc := ih (c + 1) f
      (fun i hi => by
        have := hacc (i + 1) (by omega)
        simpa [Nat.add_assoc, Nat.add_comm 1 i] using this)
      (by
        have hc : c + 1 + j = c + (j + 1) := by omega
        rw [hc]; exact hrej)
      (by omega)
    have hlist : u c :: List.map (fun i => u (c + 1 + i)) (List.range j) =
        List.map (fun i => u (c + i)) (List.range (j + 1)) := by
      rw [List.range_succ_eq_map]
      simp only [List.map_cons, List.map_map, Nat.add_zero]
      refine congrArg₂ List.cons rfl ?_
      apply List.map_congr_left
      intro i _
      simp only [Function.comp_apply]
      congr 1
      omega
    simp only [drainP, step, ihc]
    rw [Prod.mk.injEq]
    exact ⟨hlist, by omega⟩

/-- C6: `takeWhile(s, p)` yields the longest prefix of `s` on which `p`
holds (it equals `List.takeWhile`); on the concrete example
`[1,2,3,4,1]` with `n < 3` it yields `[1,2]`; and in the pull model, when
the first rejected element of an unbounded source sits at index `j`, the
drain yields exactly the first `j` elements and performs exactly `j + 1`
upstream pulls: the rejected element is pulled (and discarded, not
yielded) and nothing beyond it is ever pulled. -/
theorem takeWhile_spec (l : List α) (p : α → Bool) :
    takeWhile l p = l.takeWhile p ∧
    takeWhile [1, 2, 3, 4, 1] (fun n => decide (n < 3)) = [1, 2] ∧
    (∀ (u : Nat → α) (j fuel : Nat),
      (∀ i, i < j → p (u i) = true) → p (u j) = false → j + 1 ≤ fuel →
      drainP (takeWhileP (src u) p) fuel 0 =
        ((List.range j).map u, j + 1)) := by
  refine ⟨takeWhile_eq_list_takeWhile l p, by decide, ?_⟩
  intro u j fuel hacc hrej hfuel
  have := drainP_takeWhileP_src u p j 0 fuel
    (fun i hi => by simpa using hacc i hi) (by simpa using hrej) hfuel
  simpa using this

/-- Witness for C6 at a concrete source whose first rejected element has
index 2: exactly 3 upstream pulls happen. -/
theorem takeWhile_spec_witness :
    (∀ i, i < 2 → (fun n => decide (n < 3)) ((fun n => n + 1) i) = true) ∧
    (fun n => decide (n < 3)) ((fun n => n + 1) 2) = false ∧
    (2 : Nat) + 1 ≤ 5 ∧
    drainP (takeWhileP (src (fun n => n + 1)) (fun n => decide (n < 3))) 5 0 =
      ((List.range 2).map (fun n => n + 1), 2 + 1) :=
  ⟨by decide, by decide, by decide,
    (takeWhile_spec [] (fun n => decide (n < 3))).2.2 (fun n => n + 1) 2 5
      (by decide) (by decide) (by decide)⟩

/-! ### Claim C7: dedupe -/

theorem dedupeGo_sublist (getKey : α → String) (seen : List String)
    (l : List α) : (dedupeGo getKey seen l).Sublist l := by
  induction l generalizing seen with
  | nil => simp [dedupeGo]
  | cons x xs ih =>
    simp only [dedupeGo]
    by_cases h : seen.contains (getKey x)
    · rw [if_pos h]; exact (ih seen).cons x
    · rw [if_neg h]; exact (ih (getKey x :: seen)).cons₂ x

theorem dedupeGo_first_wins (getKey : α → String) (seen : List String)
    (l : List α) (y : α) (hy : y ∈ dedupeGo getKey seen l) :
    getKey y ∉ seen ∧
      l.find? (fun z => getKey z == getKey y) = some y := by
  induction l generalizing seen with
  | nil => simp [dedupeGo] at hy
  | cons x xs ih =>
    simp only [dedupeGo] at hy
    by_cases h : seen.contains (getKey x)
    · rw [if_pos h] at hy
      obtain ⟨hns, hfind⟩ := ih seen hy
      have hkx : getKey x ∈ seen := (contains_iff_mem_helper _ _).1 h
      have hne : (getKey x == getKey y) = false := by
        simp only [beq_eq_false_iff_ne, ne_eq]
        intro hEq
        exact hns (hEq ▸ hkx)
      exact ⟨hns, by rw [List.find?_cons_of_neg _ (by simp [hne]), hfind]⟩
    · rw [if_neg h] at hy
      rcases List.mem_cons.1 hy with rfl | hy2
      · refine ⟨fun hmem => h ((contains_iff_mem_helper _ _).2 hmem), ?_⟩
        rw [List.find?_cons_of_pos _ (by simp)]
      · obtain ⟨hns, hfind⟩ := ih (getKey x :: seen) hy2
        have hns2 : getKey y ∉ seen := fun hm => hns (List.mem_cons_of_mem _ hm)
        have hne : (getKey x == getKey y) = false := by
          simp only [beq_eq_false_iff_ne, ne_eq]
          intro hEq
          exact hns (hEq ▸ List.mem_cons_self _ _)
        exact ⟨hns2, by rw [List.find?_cons_of_neg _ (by simp [hne]), hfind]⟩

theorem dedupeGo_covers (getKey : α → String) (seen : List String)
    (l : List α) (x : α) (hx : x ∈ l) :
    getKey x ∈ seen ∨ getKey x ∈ (dedupeGo getKey seen l).map getKey := by
  induction l generalizing seen with
  | nil => simp at hx
  | cons z zs ih =>
    simp only [dedupeGo]
    by_cases h : seen.contains (getKey z)
    · rw [if_pos h]
      rcases List.mem_cons.1 hx with rfl | hx2
      · exact Or.inl ((contains_iff_mem_helper _ _).1 h)
      · exact ih seen hx2
    · rw [if_neg h]
      rcases List.mem_cons.1 hx with rfl | hx2
      · exact Or.inr (by simp)
      · rcases ih (getKey z :: seen) hx2 with hin | hin
        · rcases List.mem_cons.1 hin with hEq | hm
          · exact Or.inr (by simp [hEq])
          · exact Or.inl hm
        · exact Or.inr (by simp [hin])

theorem dedupeGo_nodup_keys (getKey : α → String) (seen : List String)
    (l : List α) : ((dedupeGo getKey seen l).map getKey).Nodup := by
  induction l generalizing seen with
  | nil => simp [dedupeGo]
  | cons x xs ih =>
    simp only [dedupeGo]
    by_cases h : seen.contains (getKey x)
    · rw [if_pos h]; exact ih seen
    · rw [if_neg h]
      simp only [List.map_cons, List.nodup_cons]
      refine ⟨?_, ih (getKey x :: seen)⟩
      intro hmem
      obtain ⟨y, hy, hky⟩ := List.mem_map.1 hmem
      obtain ⟨hns, _⟩ := dedupeGo_first_wins getKey (getKey x :: seen) xs y hy
      exact hns (hky ▸ List.mem_cons_self _ _)

/-- C7: `dedupe(s, getKey)` yields, in upstream order, exactly the
first-occurring element for each distinct key: the output is a subsequence
of the input, its keys are pairwise distinct, every input element's key is
represented, each yielded element is the first input element bearing its
key, and on the example with ids `["1","2","1","3"]` the kept elements are
the first occurrences with keys `["1","2","3"]` in that order. -/
theorem dedupe_spec (l : List α) (getKey : α → String) :
    (dedupe l getKey).Sublist l ∧
    ((dedupe l getKey).map getKey).Nodup ∧
    (∀ x, x ∈ l → getKey x ∈ (dedupe l getKey).map getKey) ∧
    (∀ y, y ∈ dedupe l getKey →
      l.find? (fun z => getKey z == getKey y) = some y) ∧
    dedupe [("1", 1), ("2", 2), ("1", 3), ("3", 4)] Prod.fst =
      [("1", 1), ("2", 2), ("3", 4)] := by
  refine ⟨dedupeGo_sublist getKey [] l, dedupeGo_nodup_keys getKey [] l,
    ?_, ?_, by decide⟩
  · intro x hx
    rcases dedupeGo_covers getKey [] l x hx with hin | hin
    · simp at hin
    · exact hin
  · intro y hy
    exact (dedupeGo_first_wins getKey [] l y hy).2

/-- Witness for C7: coverage and first-wins applied on the example list. -/
theorem dedupe_spec_witness :
    ("1", 3) ∈ [("1", 1), ("2", 2), ("1", 3), ("3", 4)] ∧
    Prod.fst ("1", 3) ∈
      (dedupe [("1", 1), ("2", 2), ("1", 3), ("3", 4)] Prod.fst).map
        Prod.fst :=
  ⟨by decide,
    (dedupe_spec [("1", 1), ("2", 2), ("1", 3), ("3", 4)] Prod.fst).2.2.1
      ("1", 3) (by decide)⟩

/-! ### Claim C1: pull counts of take and of lazy chains -/

/-- Number of indices `i` in `[c, c + m)` with `p (u i)` true. -/
def acceptCount (u : Nat → α) (p : α → Bool) (c m : Nat) : Nat :=
  match m with
  | 0 => 0
  | m + 1 => (if p (u c) then 1 else 0) + acceptCount u p (c + 1) m

/-- C1 counterexample: draining `take(s, 1)` over an unbounded source
performs 2 upstream pulls, not at most 1: when the consumer asks for the
`done` signal, the `for...of` loop pulls the element beyond the 1st before
the `count >= n` check breaks.  So the claimed bound `pulls ≤ n` is false
at `n = 1`. -/
theorem take_pulls_counterexample :
    (drainP (takeP (src (fun i => i)) 1) 2 ((0 : Nat), (0 : Int))).2.1 = 2 ∧
    ¬((2 : Nat) ≤ 1) := by
  exact ⟨rfl, by decide⟩

theorem drainP_takeP_src (u : Nat → α) (n : Int) (m c : Nat) (cnt : Int)
    (fuel : Nat) (hc : cnt = c) (hm : cnt + m = n) (hfuel : m + 1 ≤ fuel) :
    drainP (takeP (src u) n) fuel (c, cnt) =
      ((List.range m).map (fun i => u (c + i)), (c + m + 1, cnt + m)) := by
  induction m generalizing c cnt fuel with
  | zero =>
    obtain ⟨f, rfl⟩ : ∃ f, fuel = f + 1 := ⟨fuel - 1, by omega⟩
    have hge : cnt ≥ n := by omega
    have step : takeP (src u) n (c, cnt) = (none, (c + 1, cnt)) := by
      simp [takeP, src, hge]
    simp [drainP, step]
  | succ m ih =>
    obtain ⟨f, rfl⟩ : ∃ f, fuel = f + 1 := ⟨fuel - 1, by omega⟩
    have hlt : ¬(cnt ≥ n) := by omega
    have step : takeP (src u) n (c, cnt) = (some (u c), (c + 1, cnt + 1)) := by
      simp [takeP, src, hlt]
    have ihc := ih (c + 1) (cnt + 1) f (by omega) (by omega) (by omega)
    have hlist : u c :: List.map (fun i => u (c + 1 + i)) (List.range m) =
        List.map (fun i => u (c + i)) (List.range (m + 1)) := by
      rw [List.range_succ_eq_map]
      simp only [List.map_cons, List.map_map, Nat.add_zero]
      refine congrArg₂ List.cons rfl ?_
      apply List.map_congr_left
      intro i _
      simp only [Function.comp_apply]
      congr 1
      omega
    simp only [drainP, step, ihc]
    rw [Prod.mk.injEq, Prod.mk.injEq]
    exact ⟨hlist, by omega, by omega⟩

theorem drainP_takeP_src_partial (u : Nat → α) (n : Int) (k c : Nat)
    (cnt : Int) (hc : cnt = c) (hk : cnt + k ≤ n) :
    drainP (takeP (src u) n) k (c, cnt) =
      ((List.range k).map (fun i => u (c + i)), (c + k, cnt + k)) := by
  induction k generalizing c cnt with
  | zero => simp [drainP, hc]
  | succ k ih =>
    have hlt : ¬(cnt ≥ n) := by omega
    have step : takeP (src u) n (c, cnt) = (some (u c), (c + 1, cnt + 1)) := by
      simp [takeP, src, hlt]
    have ihc := ih (c + 1) (cnt + 1) (by omega) (by omega)
    have hlist : u c :: List.map (fun i => u (c + 1 + i)) (List.range k) =
        List.map (fun i => u (c + i)) (List.range (k + 1)) := by
      rw [List.range_succ_eq_map]
      simp only [List.map_cons, List.map_map, Nat.add_zero]
      refine congrArg₂ List.cons rfl ?_
      apply List.map_congr_left
      intro i _
      simp only [Function.comp_apply]
      congr 1
      omega
    simp only [drainP, step, ihc]
    rw [Prod.mk.injEq, Prod.mk.injEq]
    exact ⟨hlist, by omega, by omega⟩

theorem filterGoP_takeP_finds_accept (u : Nat → α) (p : α → Bool) (M : Int)
    (m : Nat) (c : Nat) (cnt : Int) (fuel : Nat)
    (hone : 1 ≤ acceptCount u p c m) (hM : cnt + m ≤ M) (hfuel : m ≤ fuel) :
    ∃ j : Nat, j < m ∧ p (u (c + j)) = true ∧
      filterGoP (takeP (src u) M) p fuel (c, cnt) =
        (some (u (c + j)), (c + j + 1, cnt + j + 1)) ∧
      acceptCount u p (c + j + 1) (m - j - 1) = acceptCount u p c m - 1 := by
  induction m generalizing c cnt fuel with
  | zero => simp [acceptCount] at hone
  | succ m ih =>
    obtain ⟨f, rfl⟩ : ∃ f, fuel = f + 1 := ⟨fuel - 1, by omega⟩
    have hlt : ¬(cnt ≥ M) := by omega
    have step : takeP (src u) M (c, cnt) = (some (u c), (c + 1, cnt + 1)) := by
      simp [takeP, src, hlt]
    by_cases hp : p (u c)
    · refine ⟨0, by omega, by simpa using hp, ?_, ?_⟩
      · simp [filterGoP, step, hp]
      · simp [acceptCount, hp]
    · have hone2 : 1 ≤ acceptCount u p (c + 1) m := by
        have : acceptCount u p c (m + 1) = acceptCount u p (c + 1) m := by
          simp [acceptCount, hp]
        omega
      obtain ⟨j, hj, hpj, heq, hcount⟩ :=
        ih (c + 1) (cnt + 1) f hone2 (by omega) (by omega)
      refine ⟨j + 1, by omega, ?_, ?_, ?_⟩
      · have : c + 1 + j = c + (j + 1) := by omega
        rw [← this]; exact hpj
      · have hrw : filterGoP (takeP (src u) M) p (f + 1) (c, cnt) =
            filterGoP (takeP (src u) M) p f (c + 1, cnt + 1) := by
          simp [filterGoP, step, hp]
        rw [hrw, heq]
        rw [Prod.mk.injEq, Prod.mk.injEq]
        refine ⟨by rw [show c + 1 + j = c + (j + 1) by omega], by omega,
          by omega⟩
      · have h1 : acceptCount u p c (m + 1) = acceptCount u p (c + 1) m := by
          simp [acceptCount, hp]
        have h2 : c + 1 + j + 1 = c + (j + 1) + 1 := by omega
        have h3 : m - j - 1 = m + 1 - (j + 1) - 1 := by omega
        rw [h2, h3] at hcount
        omega

theorem drainP_chain_pull_bound (u : Nat → α) (p : α → Bool) (f : α → β)
    (M : Int) (k m : Nat) (c : Nat) (cnt : Int) (fuel : Nat)
    (hk : k ≤ acceptCount u p c m) (hM : cnt + m ≤ M) (hfuel : m ≤ fuel) :
    (drainP (mapP (filterP (takeP (src u) M) p fuel) f) k (c, cnt)).2.1 ≤
      c + m := by
  induction k generalizing c cnt m with
  | zero => simp [drainP]
  | succ k ih =>
    obtain ⟨j, hj, hpj, heq, hcount⟩ :=
      filterGoP_takeP_finds_accept u p M m c cnt fuel (by omega) hM hfuel
    have step : mapP (filterP (takeP (src u) M) p fuel) f (c, cnt) =
        (some (f (u (c + j))), (c + j + 1, cnt + j + 1)) := by
      simp only [mapP, filterP, heq]
    have ihc := ih (m - j - 1) (c + j + 1) (cnt + j + 1)
      (by omega) (by omega) (by omega)
    simp only [drainP, step]
    calc (drainP (mapP (filterP (takeP (src u) M) p fuel) f) k
            (c + j + 1, cnt + j + 1)).2.1 ≤ (c + j + 1) + (m - j - 1) := ihc
      _ ≤ c + m := by omega

/-- C1 amended: draining `take(s, n)` over an unbounded source performs
exactly `n + 1` upstream pulls (not at most `n`): the `n` values cost one
pull each, and the final `done` request performs one speculative pull whose
element is discarded.  Requesting only `k ≤ n` values performs exactly `k`
upstream pulls, and pulling `k` elements from the chain
`map(filter(take(source, M), p), f)` over an unbounded source pulls at
most `m` upstream elements whenever the first `m` upstream elements
already contain `k` elements satisfying `p` — no eager materialization of
the `M`-element bound. -/
theorem take_pulls_amended :
    (∀ {α : Type u} (u : Nat → α) (n fuel : Nat), n + 1 ≤ fuel →
      drainP (takeP (src u) (n : Int)) fuel ((0 : Nat), (0 : Int)) =
        ((List.range n).map u, (n + 1, (n : Int)))) ∧
    (∀ {α : Type u} (u : Nat → α) (n : Int) (k : Nat), (k : Int) ≤ n →
      drainP (takeP (src u) n) k ((0 : Nat), (0 : Int)) =
        ((List.range k).map u, (k, (k : Int)))) ∧
    (∀ {α : Type u} {β : Type v} (u : Nat → α) (p : α → Bool) (f : α → β)
      (M : Int) (k m fuel : Nat), k ≤ acceptCount u p 0 m → (m : Int) ≤ M →
      m ≤ fuel →
      (drainP (mapP (filterP (takeP (src u) M) p fuel) f) k
        ((0 : Nat), (0 : Int))).2.1 ≤ m) := by
  refine ⟨?_, ?_, ?_⟩
  · intro α u n fuel hfuel
    have := drainP_takeP_src u (n : Int) n 0 0 fuel rfl (by omega) hfuel
    simpa using this
  · intro α u n k hk
    have := drainP_takeP_src_partial u n k 0 0 rfl (by omega)
    simpa using this
  · intro α β u p f M k m fuel hk hM hfuel
    have := drainP_chain_pull_bound u p f M k m 0 0 fuel hk (by omega) hfuel
    simpa using this

/-- Witness for C1 amended: a concrete chain over the unbounded source of
naturals with an even-number filter, `M = 100`: pulling 2 elements pulls
at most 4 upstream elements; and draining `take` with `n = 3` pulls
exactly 4. -/
theorem take_pulls_amended_witness :
    ((3 : Nat) + 1 ≤ 10 ∧
      drainP (takeP (src (fun i => i)) ((3 : Nat) : Int)) 10
        ((0 : Nat), (0 : Int)) =
        ((List.range 3).map (fun i => i), (3 + 1, ((3 : Nat) : Int)))) ∧
    ((2 : Nat) ≤ acceptCount (fun i => i) (fun i => decide (i % 2 = 0)) 0 4 ∧
      ((4 : Nat) : Int) ≤ 100 ∧ (4 : Nat) ≤ 10 ∧
      (drainP (mapP (filterP (takeP (src (fun i => i)) 100)
          (fun i => decide (i % 2 = 0)) 10) (fun i => i + 1)) 2
        ((0 : Nat), (0 : Int))).2.1 ≤ 4) :=
  ⟨⟨by decide, take_pulls_amended.{0, 0}.1 (fun i => i) 3 10 (by decide)⟩,
    ⟨by decide, by decide, by decide,
      take_pulls_amended.{0, 0}.2.2 (fun i => i) (fun i => decide (i % 2 = 0))
        (fun i => i + 1) 100 2 4 10 (by decide) (by decide) (by decide)⟩⟩

/-! ### Suspending (async) family

An async iterable is modelled as the list of its pulls, each a computation
in a monad `m` (one bind per `await` in the source).  Each async
combinator is the drain of the async generator it embeds: the list of
elements it yields, inside `m`, with the monadic effects sequenced exactly
as the generator body sequences its `await`s. -/

section Async

variable {m : Type → Type} [Monad m] {A B : Type}

/-- Embeds `toAsync`: promotes a sequential iterable to the suspending
protocol; every pull resolves trivially (`pure`). -/
def toAsync (iter : List A) : List (m A) :=
  iter.map pure

/-- Embeds the `yield* inner` of `concatAsync`/`flattenAsync`/
`flatMapAsync` over a suspending inner iterable: await and yield each
element. -/
def drainInner (inner : List (m A)) : m (List A) :=
  match inner with
  | [] => pure []
  | pull :: rest => do
    let value ← pull
    let tail ← drainInner rest
    pure (value :: tail)

/-- Embeds `mapAsync`: await each value, await `fn value`, yield it. -/
def mapAsync (iter : List (m A)) (fn : A → m B) : m (List B) :=
  match iter with
  | [] => pure []
  | pull :: rest => do
    let value ← pull
    let result ← fn value
    let tail ← mapAsync rest fn
    pure (result :: tail)

/-- Embeds `filterAsync`: await each value and the predicate; yield the
value when the predicate returns true. -/
def filterAsync (iter : List (m A)) (predicate : A → m Bool) : m (List A) :=
  match iter with
  | [] => pure []
  | pull :: rest => do
    let value ← pull
    let keep ← predicate value
    if keep then do
      let tail ← filterAsync rest predicate
      pure (value :: tail)
    else filterAsync rest predicate

/-- Embeds `reduceAsync`: thread the accumulator through every awaited
value. -/
def reduceAsync (iter : List (m A)) (fn : B → A → m B) (initial : B) :
    m B :=
  match iter with
  | [] => pure initial
  | pull :: rest => do
    let value ← pull
    let acc ← fn initial value
    reduceAsync rest fn acc

/-- Loop of `scanAsync` after the initial yield. -/
def scanAsyncGo (fn : B → A → m B) (acc : B) (iter : List (m A)) :
    m (List B) :=
  match iter with
  | [] => pure []
  | pull :: rest => do
    let value ← pull
    let acc2 ← fn acc value
    let tail ← scanAsyncGo fn acc2 rest
    pure (acc2 :: tail)

/-- Embeds `scanAsync`: the initial accumulator is yielded first, then the
loop yields each update. -/
def scanAsync (iter : List (m A)) (fn : B → A → m B) (initial : B) :
    m (List B) := do
  let tail ← scanAsyncGo fn initial iter
  pure (initial :: tail)

/-- Embeds `concatAsync` over a list of (promoted) argument iterables. -/
def concatAsync (iters : List (List (m A))) : m (List A) :=
  match iters with
  | [] => pure []
  | inner :: rest => do
    let head ← drainInner inner
    let tail ← concatAsync rest
    pure (head ++ tail)

/-- Embeds `flattenAsync`: await each outer element (itself a suspending
iterable), drain it, then move on. -/
def flattenAsync (iter : List (m (List (m A)))) : m (List A) :=
  match iter with
  | [] => pure []
  | pull :: rest => do
    let inner ← pull
    let head ← drainInner inner
    let tail ← flattenAsync rest
    pure (head ++ tail)

/-- Embeds `flatMapAsync`: await each value, drain `fn value`, move on. -/
def flatMapAsync (iter : List (m A)) (fn : A → List (m B)) : m (List B) :=
  match iter with
  | [] => pure []
  | pull :: rest => do
    let value ← pull
    let head ← drainInner (fn value)
    let tail ← flatMapAsync rest fn
    pure (head ++ tail)

/-- Embeds `filterMapAsync`: await each value and `fn value`; yield the
result exactly when it is neither null nor undefined. -/
def filterMapAsync (iter : List (m A)) (fn : A → m (JSOpt B)) :
    m (List B) :=
  match iter with
  | [] => pure []
  | pull :: rest => do
    let value ← pull
    let result ← fn value
    match result with
    | .val b => do
      let tail ← filterMapAsync rest fn
      pure (b :: tail)
    | .vnull => filterMapAsync rest fn
    | .vundefined => filterMapAsync rest fn

/-- Loop of `takeAsync` with the running count explicit: the value is
awaited before the `count >= n` break check, as in the source. -/
def takeAsyncGo (n : Int) (iter : List (m A)) (count : Int) : m (List A) :=
  match iter with
  | [] => pure []
  | pull :: rest => do
    let value ← pull
    if count ≥ n then pure []
    else do
      let tail ← takeAsyncGo n rest (count + 1)
      pure (value :: tail)

/-- Embeds `takeAsync`: the count starts at 0. -/
def takeAsync (iter : List (m A)) (n : Int) : m (List A) :=
  takeAsyncGo n iter 0

/-- Embeds `takeWhileAsync`: await each value and the predicate; stop at
the first rejection, discarding the rejected value. -/
def takeWhileAsync (iter : List (m A)) (predicate : A → m Bool) :
    m (List A) :=
  match iter with
  | [] => pure []
  | pull :: rest => do
    let value ← pull
    let keep ← predicate value
    if keep then do
      let tail ← takeWhileAsync rest predicate
      pure (value :: tail)
    else pure []

/-- Loop of `dedupeAsync` with the `seen` set explicit; `getKey` is a
plain (non-suspending) function in the source. -/
def dedupeAsyncGo (getKey : A → String) (seen : List String)
    (iter : List (m A)) : m (List A) :=
  match iter with
  | [] => pure []
  | pull :: rest => do
    let value ← pull
    let key := getKey value
    if seen.contains key then dedupeAsyncGo getKey seen rest
    else do
      let tail ← dedupeAsyncGo getKey (key :: seen) rest
      pure (value :: tail)

/-- Embeds `dedupeAsync`: the `seen` set starts empty. -/
def dedupeAsync (iter : List (m A)) (getKey : A → String) : m (List A) :=
  dedupeAsyncGo getKey [] iter

end Async

/-! ### Claim C2: the suspending family over a bridged source agrees with
the sequential family -/

section AsyncEquiv

variable {m : Type → Type} [Monad m] [LawfulMonad m] {A B : Type}

theorem drainInner_map_pure (l : List A) :
    drainInner (l.map pure) = (pure l : m (List A)) := by
  induction l with
  | nil => rfl
  | cons x xs ih => simp [drainInner, ih]

theorem mapAsync_map_pure (l : List A) (f : A → B) :
    mapAsync (l.map pure) (fun a => (pure (f a) : m B)) = pure (map l f) := by
  induction l with
  | nil => rfl
  | cons x xs ih => simp [mapAsync, map, ih]

theorem filterAsync_map_pure (l : List A) (p : A → Bool) :
    filterAsync (l.map pure) (fun a => (pure (p a) : m Bool)) =
      pure (filter l p) := by
  induction l with
  | nil => rfl
  | cons x xs ih => by_cases h : p x <;> simp [filterAsync, filter, h, ih]

theorem filterMapAsync_map_pure (l : List A) (g : A → JSOpt B) :
    filterMapAsync (l.map pure) (fun a => (pure (g a) : m (JSOpt B))) =
      pure (filterMap l g) := by
  induction l with
  | nil => rfl
  | cons x xs ih => cases hg : g x <;> simp [filterMapAsync, filterMap, hg, ih]

theorem reduceAsync_map_pure (l : List A) (f : B → A → B) (i : B) :
    reduceAsync (l.map pure) (fun b a => (pure (f b a) : m B)) i =
      pure (reduce l f i) := by
  induction l generalizing i with
  | nil => rfl
  | cons x xs ih => simp [reduceAsync, reduce, ih]

theorem scanAsyncGo_map_pure (l : List A) (f : B → A → B) (acc : B) :
    scanAsyncGo (fun b a => (pure (f b a) : m B)) acc (l.map pure) =
      pure (scanGo f acc l) := by
  induction l generalizing acc with
  | nil => rfl
  | cons x xs ih => simp [scanAsyncGo, scanGo, ih]

theorem scanAsync_map_pure (l : List A) (f : B → A → B) (i : B) :
    scanAsync (l.map pure) (fun b a => (pure (f b a) : m B)) i =
      pure (scan l f i) := by
  simp [scanAsync, scanAsyncGo_map_pure, scan]

theorem concatAsync_map_pure (ls : List (List A)) :
    concatAsync (ls.map (fun l => l.map pure)) = (pure (concat ls) : m (List A)) := by
  induction ls with
  | nil => rfl
  | cons inner rest ih =>
    simp [concatAsync, concat, drainInner_map_pure, ih]

theorem flattenAsync_map_pure (ll : List (List A)) :
    flattenAsync ((ll.map (fun l => l.map pure)).map pure) =
      (pure (flatten ll) : m (List A)) := by
  induction ll with
  | nil => rfl
  | cons inner rest ih =>
    simp only [List.map_map] at ih
    simp [flattenAsync, flatten, drainInner_map_pure, ih]

theorem flatMapAsync_map_pure (l : List A) (f : A → List B) :
    flatMapAsync (l.map pure) (fun a => (f a).map pure) =
      (pure (flatMap l f) : m (List B)) := by
  induction l with
  | nil => rfl
  | cons x xs ih => simp [flatMapAsync, flatMap, drainInner_map_pure, ih]

theorem takeAsyncGo_map_pure (l : List A) (n count : Int) :
    takeAsyncGo n (l.map pure) count = (pure (takeGo n l count) : m (List A)) := by
  induction l generalizing count with
  | nil => rfl
  | cons x xs ih =>
    by_cases h : count ≥ n <;> simp [takeAsyncGo, takeGo, h, ih]

theorem takeAsync_map_pure (l : List A) (n : Int) :
    takeAsync (l.map pure) n = (pure (take l n) : m (List A)) := by
  simp [takeAsync, take, takeAsyncGo_map_pure]

theorem takeWhileAsync_map_pure (l : List A) (p : A → Bool) :
    takeWhileAsync (l.map pure) (fun a => (pure (p a) : m Bool)) =
      pure (takeWhile l p) := by
  induction l with
  | nil => rfl
  | cons x xs ih => by_cases h : p x <;> simp [takeWhileAsync, takeWhile, h, ih]

theorem dedupeAsyncGo_map_pure (l : List A) (getKey : A → String)
    (seen : List String) :
    dedupeAsyncGo getKey seen (l.map pure) =
      (pure (dedupeGo getKey seen l) : m (List A)) := by
  induction l generalizing seen with
  | nil => rfl
  | cons x xs ih =>
    simp only [List.map_cons, dedupeAsyncGo, dedupeGo, pure_bind, ih]
    split <;> simp

theorem dedupeAsync_map_pure (l : List A) (getKey : A → String) :
    dedupeAsync (l.map pure) getKey = (pure (dedupe l getKey) : m (List A)) := by
  simp [dedupeAsync, dedupe, dedupeAsyncGo_map_pure]

end AsyncEquiv

/-- C2: for every sequential combinator of the library and every finite
input and step functions, the suspending counterpart applied to the same
source promoted through `toAsync` (with trivially resolving step
functions) yields an element sequence identical, element-for-element and
in order, to the sequential combinator's result — for any lawful monad of
suspensions. -/
theorem async_equiv_spec {m : Type → Type} [Monad m] [LawfulMonad m]
    {A B : Type} (l : List A) (f : A → B) (p : A → Bool) (g : A → JSOpt B)
    (facc : B → A → B) (i : B) (ll : List (List A)) (hfm : A → List B)
    (ls : List (List A)) (getKey : A → String) (n : Int) :
    mapAsync (toAsync l) (fun a => (pure (f a) : m B)) = pure (map l f) ∧
    filterAsync (toAsync l) (fun a => (pure (p a) : m Bool)) =
      pure (filter l p) ∧
    filterMapAsync (toAsync l) (fun a => (pure (g a) : m (JSOpt B))) =
      pure (filterMap l g) ∧
    scanAsync (toAsync l) (fun b a => (pure (facc b a) : m B)) i =
      pure (scan l facc i) ∧
    reduceAsync (toAsync l) (fun b a => (pure (facc b a) : m B)) i =
      pure (reduce l facc i) ∧
    flattenAsync (toAsync (ll.map (toAsync : List A → List (m A)))) =
      pure (flatten ll) ∧
    flatMapAsync (toAsync l) (fun a => (toAsync (hfm a) : List (m B))) =
      pure (flatMap l hfm) ∧
    concatAsync (ls.map (toAsync : List A → List (m A))) =
      pure (concat ls) ∧
    takeAsync (toAsync l : List (m A)) n = pure (take l n) ∧
    takeWhileAsync (toAsync l) (fun a => (pure (p a) : m Bool)) =
      pure (takeWhile l p) ∧
    dedupeAsync (toAsync l : List (m A)) getKey = pure (dedupe l getKey) := by
  simp only [toAsync]
  exact ⟨mapAsync_map_pure l f, filterAsync_map_pure l p,
    filterMapAsync_map_pure l g, scanAsync_map_pure l facc i,
    reduceAsync_map_pure l facc i, flattenAsync_map_pure ll,
    flatMapAsync_map_pure l hfm, concatAsync_map_pure ls,
    takeAsync_map_pure l n, takeWhileAsync_map_pure l p,
    dedupeAsync_map_pure l getKey⟩

/-- Witness for C2 with the identity monad and concrete inputs. -/
theorem async_equiv_spec_witness :
    mapAsync (m := Id) (toAsync [1, 2, 3]) (fun a => pure (a + 1)) =
      pure (map [1, 2, 3] (fun a => a + 1)) :=
  (async_equiv_spec (m := Id) [1, 2, 3] (fun a => a + 1) (fun _ => true)
    (fun _ => JSOpt.vnull) (fun b a => b + a) 0 [[1], []] (fun a => [a])
    [[4], [5]] (fun _ => "k") 2).1

/-! ### Claim C9: filterMap drops exactly null and undefined -/

/-- A small universe of JavaScript values, enough to express that falsy
values (`0`, the empty string, `false`) are kept by `filterMap`. -/
inductive JSVal : Type
  | vnum (n : Int)
  | vstr (s : String)
  | vbool (b : Bool)
deriving DecidableEq, Repr

/-- C9: `filterMap(s, fn)` keeps exactly the elements whose result is
neither `null` nor `undefined` (both nullish values are dropped), yielding
every present result unchanged in upstream order — including the falsy
values `0`, `""` and `false` — and `filterMapAsync` over a bridged source
does the same. -/
theorem filterMap_nullish_spec (l : List α) (fn : α → JSOpt β) :
    filterMap l fn = (l.map fn).filterMap JSOpt.toOption ∧
    (∀ r : JSOpt β, r.toOption = none ↔
      (r = JSOpt.vnull ∨ r = JSOpt.vundefined)) ∧
    (∀ b : β, (JSOpt.val b).toOption = some b) ∧
    filterMap [0, 1, 2, 3, 4]
      (fun k : Nat =>
        if k = 0 then JSOpt.val (JSVal.vnum 0)
        else if k = 1 then JSOpt.vnull
        else if k = 2 then JSOpt.val (JSVal.vstr "")
        else if k = 3 then JSOpt.vundefined
        else JSOpt.val (JSVal.vbool false)) =
      [JSVal.vnum 0, JSVal.vstr "", JSVal.vbool false] ∧
    (∀ (m : Type → Type) [Monad m] [LawfulMonad m] (A B : Type)
      (l2 : List A) (g : A → JSOpt B),
      filterMapAsync (toAsync l2) (fun a => (pure (g a) : m (JSOpt B))) =
        pure (filterMap l2 g)) := by
  refine ⟨?_, ?_, fun b => rfl, by decide, ?_⟩
  · induction l with
    | nil => rfl
    | cons x xs ih =>
      cases hg : fn x <;>
        simp [filterMap, List.filterMap_cons, hg, JSOpt.toOption, ih]
  · intro r
    cases r <;> simp [JSOpt.toOption]
  · intro m im ilm A B l2 g
    simpa [toAsync] using filterMapAsync_map_pure (m := m) l2 g

/-- Witness for C9: the suspending conjunct at the identity monad. -/
theorem filterMap_nullish_spec_witness :
    filterMapAsync (m := Id) (toAsync [0, 1])
      (fun a => pure (if a = 0 then JSOpt.val a else JSOpt.vnull)) =
      pure (filterMap [0, 1]
        (fun a => if a = 0 then JSOpt.val a else JSOpt.vnull)) :=
  (filterMap_nullish_spec ([] : List Nat)
    (fun _ => (JSOpt.vnull : JSOpt Nat))).2.2.2.2 Id Nat Nat [0, 1]
    (fun a => if a = 0 then JSOpt.val a else JSOpt.vnull)

/-! ### Error model

A throwing step function is `Except`-valued.  The drain of a combinator
whose step function may throw is the list of values yielded before the
failure, paired with the failure (if any): the generator body does not
catch the error, so it surfaces at the downstream request during which the
failing step runs, and nothing is yielded afterwards. -/

section Errors

variable {E : Type w}

/-- Drain of `map` with a throwing transform. -/
def mapE (iter : List α) (fn : α → Except E β) : List β × Option E :=
  match iter with
  | [] => ([], none)
  | value :: rest =>
    match fn value with
    | .error e => ([], some e)
    | .ok result =>
      let r := mapE rest fn
      (result :: r.1, r.2)

/-- Drain of `filter` with a throwing predicate. -/
def filterE (iter : List α) (predicate : α → Except E Bool) :
    List α × Option E :=
  match iter with
  | [] => ([], none)
  | value :: rest =>
    match predicate value with
    | .error e => ([], some e)
    | .ok true =>
      let r := filterE rest predicate
      (value :: r.1, r.2)
    | .ok false => filterE rest predicate

/-- Drain of `filterMap` with a throwing transform. -/
def filterMapE (iter : List α) (fn : α → Except E (JSOpt β)) :
    List β × Option E :=
  match iter with
  | [] => ([], none)
  | value :: rest =>
    match fn value with
    | .error e => ([], some e)
    | .ok (.val result) =>
      let r := filterMapE rest fn
      (result :: r.1, r.2)
    | .ok .vnull => filterMapE rest fn
    | .ok .vundefined => filterMapE rest fn

/-- Loop of `scan` with a throwing accumulator. -/
def scanGoE (fn : β → α → Except E β) (acc : β) (iter : List α) :
    List β × Option E :=
  match iter with
  | [] => ([], none)
  | value :: rest =>
    match fn acc value with
    | .error e => ([], some e)
    | .ok acc2 =>
      let r := scanGoE fn acc2 rest
      (acc2 :: r.1, r.2)

/-- Drain of `scan` with a throwing accumulator: `initial` is yielded
before the loop ever calls `fn`. -/
def scanE (iter : List α) (fn : β → α → Except E β) (initial : β) :
    List β × Option E :=
  let r := scanGoE fn initial iter
  (initial :: r.1, r.2)

/-- `reduce` with a throwing accumulator: the result is the final
accumulator or the first failure. -/
def reduceE (iter : List α) (fn : β → α → Except E β) (initial : β) :
    Except E β :=
  match iter with
  | [] => .ok initial
  | value :: rest =>
    match fn initial value with
    | .error e => .error e
    | .ok acc => reduceE rest fn acc

/-- Drain of `flatMap` with a throwing transform (the returned iterable
itself is a plain list). -/
def flatMapE (iter : List α) (fn : α → Except E (List β)) :
    List β × Option E :=
  match iter with
  | [] => ([], none)
  | value :: rest =>
    match fn value with
    | .error e => ([], some e)
    | .ok inner =>
      let r := flatMapE rest fn
      (inner ++ r.1, r.2)

/-- Drain of `takeWhile` with a throwing predicate. -/
def takeWhileE (iter : List α) (predicate : α → Except E Bool) :
    List α × Option E :=
  match iter with
  | [] => ([], none)
  | value :: rest =>
    match predicate value with
    | .error e => ([], some e)
    | .ok true =>
      let r := takeWhileE rest predicate
      (value :: r.1, r.2)
    | .ok false => ([], none)

/-- Loop of `dedupe` with a throwing key function; the middle component is
the final contents of the `seen` set (most recently added first), so that
the state reached before a failure stays observable. -/
def dedupeGoE (getKey : α → Except E String) (seen : List String)
    (iter : List α) : List α × List String × Option E :=
  match iter with
  | [] => ([], seen, none)
  | value :: rest =>
    match getKey value with
    | .error e => ([], seen, some e)
    | .ok key =>
      if seen.contains key then dedupeGoE getKey seen rest
      else
        let r := dedupeGoE getKey (key :: seen) rest
        (value :: r.1, r.2)

/-- Drain of `dedupe` with a throwing key function. -/
def dedupeE (iter : List α) (getKey : α → Except E String) :
    List α × List String × Option E :=
  dedupeGoE getKey [] iter

end Errors

/-! ### Claim C3: failure propagation -/

section ErrorLemmas

variable {E : Type w}

theorem mapE_prefix_error (pre post : List α) (x : α) (e : E)
    (fn : α → Except E β) (pf : α → β)
    (hok : ∀ a ∈ pre, fn a = .ok (pf a)) (hx : fn x = .error e) :
    mapE (pre ++ x :: post) fn = (map pre pf, some e) := by
  induction pre with
  | nil => simp [mapE, hx, map]
  | cons a pre ih =>
    have ha : fn a = .ok (pf a) := hok a (List.mem_cons_self a pre)
    have ihc := ih (fun b hb => hok b (List.mem_cons_of_mem a hb))
    simp [mapE, ha, ihc, map]

theorem filterE_prefix_error (pre post : List α) (x : α) (e : E)
    (fn : α → Except E Bool) (pf : α → Bool)
    (hok : ∀ a ∈ pre, fn a = .ok (pf a)) (hx : fn x = .error e) :
    filterE (pre ++ x :: post) fn = (filter pre pf, some e) := by
  induction pre with
  | nil => simp [filterE, hx, filter]
  | cons a pre ih =>
    have ha : fn a = .ok (pf a) := hok a (List.mem_cons_self a pre)
    have ihc := ih (fun b hb => hok b (List.mem_cons_of_mem a hb))
    cases hpa : pf a <;> rw [hpa] at ha <;>
      simp [filterE, ha, ihc, filter, hpa]

theorem filterMapE_prefix_error (pre post : List α) (x : α) (e : E)
    (fn : α → Except E (JSOpt β)) (pf : α → JSOpt β)
    (hok : ∀ a ∈ pre, fn a = .ok (pf a)) (hx : fn x = .error e) :
    filterMapE (pre ++ x :: post) fn = (filterMap pre pf, some e) := by
  induction pre with
  | nil => simp [filterMapE, hx, filterMap]
  | cons a pre ih =>
    have ha : fn a = .ok (pf a) := hok a (List.mem_cons_self a pre)
    have ihc := ih (fun b hb => hok b (List.mem_cons_of_mem a hb))
    cases hpa : pf a <;> rw [hpa] at ha <;>
      simp [filterMapE, ha, ihc, filterMap, hpa]

theorem scanGoE_prefix_error (pre post : List α) (x : α) (e : E)
    (fn : β → α → Except E β) (pf : β → α → β)
    (hok : ∀ (b : β), ∀ a ∈ pre, fn b a = .ok (pf b a)) :
    ∀ acc, fn (reduce pre pf acc) x = .error e →
      scanGoE fn acc (pre ++ x :: post) = (scanGo pf acc pre, some e) := by
  induction pre with
  | nil =>
    intro acc hx
    simp only [reduce] at hx
    simp [scanGoE, hx, scanGo]
  | cons a pre ih =>
    intro acc hx
    have ha : fn acc a = .ok (pf acc a) :=
      hok acc a (List.mem_cons_self a pre)
    simp only [reduce] at hx
    have ihc := ih (fun b c hc => hok b c (List.mem_cons_of_mem a hc))
      (pf acc a) hx
    simp [scanGoE, ha, ihc, scanGo]

theorem reduceE_prefix_error (pre post : List α) (x : α) (e : E)
    (fn : β → α → Except E β) (pf : β → α → β)
    (hok : ∀ (b : β), ∀ a ∈ pre, fn b a = .ok (pf b a)) :
    ∀ acc, fn (reduce pre pf acc) x = .error e →
      reduceE (pre ++ x :: post) fn acc = .error e := by
  induction pre with
  | nil =>
    intro acc hx
    simp only [reduce] at hx
    simp [reduceE, hx]
  | cons a pre ih =>
    intro acc hx
    have ha : fn acc a = .ok (pf acc a) :=
      hok acc a (List.mem_cons_self a pre)
    simp only [reduce] at hx
    have ihc := ih (fun b c hc => hok b c (List.mem_cons_of_mem a hc))
      (pf acc a) hx
    simp [reduceE, ha, ihc]

theorem flatMapE_prefix_error (pre post : List α) (x : α) (e : E)
    (fn : α → Except E (List β)) (pf : α → List β)
    (hok : ∀ a ∈ pre, fn a = .ok (pf a)) (hx : fn x = .error e) :
    flatMapE (pre ++ x :: post) fn = (flatMap pre pf, some e) := by
  induction pre with
  | nil => simp [flatMapE, hx, flatMap]
  | cons a pre ih =>
    have ha : fn a = .ok (pf a) := hok a (List.mem_cons_self a pre)
    have ihc := ih (fun b hb => hok b (List.mem_cons_of_mem a hb))
    simp [flatMapE, ha, ihc, flatMap]

theorem takeWhileE_prefix_error (pre post : List α) (x : α) (e : E)
    (fn : α → Except E Bool) (pf : α → Bool)
    (hok : ∀ a ∈ pre, fn a = .ok (pf a)) (hall : ∀ a ∈ pre, pf a = true)
    (hx : fn x = .error e) :
    takeWhileE (pre ++ x :: post) fn = (pre, some e) := by
  induction pre with
  | nil => simp [takeWhileE, hx]
  | cons a pre ih =>
    have ha : fn a = .ok (pf a) := hok a (List.mem_cons_self a pre)
    have hpa : pf a = true := hall a (List.mem_cons_self a pre)
    rw [hpa] at ha
    have ihc := ih (fun b hb => hok b (List.mem_cons_of_mem a hb))
      (fun b hb => hall b (List.mem_cons_of_mem a hb))
    simp [takeWhileE, ha, ihc]

theorem dedupeGoE_prefix_error (pre post : List α) (x : α) (e : E)
    (fn : α → Except E String) (pf : α → String)
    (hok : ∀ a ∈ pre, fn a = .ok (pf a)) (hx : fn x = .error e) :
    ∀ seen, dedupeGoE fn seen (pre ++ x :: post) =
      (dedupeGo pf seen pre,
        ((dedupeGo pf seen pre).map pf).reverse ++ seen, some e) := by
  induction pre with
  | nil => intro seen; simp [dedupeGoE, hx, dedupeGo]
  | cons a pre ih =>
    intro seen
    have ha : fn a = .ok (pf a) := hok a (List.mem_cons_self a pre)
    have ihc := ih (fun b hb => hok b (List.mem_cons_of_mem a hb))
    simp only [List.cons_append, dedupeGoE, ha, dedupeGo, List.append_eq,
      ihc]
    split
    · rfl
    · simp [List.reverse_cons, List.append_assoc]

end ErrorLemmas

/-- C3 counterexample: for `filter` with a predicate that succeeds
(rejecting) on the 1st element and throws on the 2nd (`k = 2`), the
consumer observes the failure at the very first output request, with zero
elements produced — not at the 2nd output request with one element
produced, as the claim's "observes the failure when requesting the k-th
output" would demand. -/
theorem step_failure_counterexample :
    filterE [1, 2]
      (fun n : Nat =>
        if n = 2 then (Except.error "boom" : Except String Bool)
        else .ok false) = (([] : List Nat), some "boom") ∧
    ¬((([] : List Nat)).length = 2 - 1) :=
  ⟨rfl, by decide⟩

/-- C3 amended: for every combinator taking a step function, if the step
function succeeds on the elements before the k-th and fails (throws) on
the k-th, the combinator does not catch the error: the consumer observes
exactly that failure (same error, unwrapped) at the output request during
which the k-th element is processed — after every output derived from the
earlier elements and, for `scan`, after the initial accumulator — no
element at or beyond the k-th contributes any output, and internal state
advanced by prior steps stays recorded (the dedupe `seen` set still holds
exactly the keys of the elements yielded before the failure).  The output
request carrying the failure is the k-th one only for the 1-to-1
combinator `map`; for cardinality-changing combinators its index shifts
accordingly. -/
theorem step_failure_amended {E : Type w} (pre post : List α) (x : α)
    (e : E) :
    (∀ (fn : α → Except E β) (pf : α → β),
      (∀ a ∈ pre, fn a = .ok (pf a)) → fn x = .error e →
      mapE (pre ++ x :: post) fn = (map pre pf, some e)) ∧
    (∀ (fn : α → Except E Bool) (pf : α → Bool),
      (∀ a ∈ pre, fn a = .ok (pf a)) → fn x = .error e →
      filterE (pre ++ x :: post) fn = (filter pre pf, some e)) ∧
    (∀ (fn : α → Except E (JSOpt β)) (pf : α → JSOpt β),
      (∀ a ∈ pre, fn a = .ok (pf a)) → fn x = .error e →
      filterMapE (pre ++ x :: post) fn = (filterMap pre pf, some e)) ∧
    (∀ (fn : β → α → Except E β) (pf : β → α → β) (i : β),
      (∀ (b : β), ∀ a ∈ pre, fn b a = .ok (pf b a)) →
      fn (reduce pre pf i) x = .error e →
      scanE (pre ++ x :: post) fn i = (scan pre pf i, some e)) ∧
    (∀ (fn : β → α → Except E β) (pf : β → α → β) (i : β),
      (∀ (b : β), ∀ a ∈ pre, fn b a = .ok (pf b a)) →
      fn (reduce pre pf i) x = .error e →
      reduceE (pre ++ x :: post) fn i = .error e) ∧
    (∀ (fn : α → Except E (List β)) (pf : α → List β),
      (∀ a ∈ pre, fn a = .ok (pf a)) → fn x = .error e →
      flatMapE (pre ++ x :: post) fn = (flatMap pre pf, some e)) ∧
    (∀ (fn : α → Except E Bool) (pf : α → Bool),
      (∀ a ∈ pre, fn a = .ok (pf a)) → (∀ a ∈ pre, pf a = true) →
      fn x = .error e →
      takeWhileE (pre ++ x :: post) fn = (pre, some e)) ∧
    (∀ (fn : α → Except E String) (pf : α → String),
      (∀ a ∈ pre, fn a = .ok (pf a)) → fn x = .error e →
      dedupeE (pre ++ x :: post) fn =
        (dedupe pre pf, ((dedupe pre pf).map pf).reverse, some e)) := by
  refine ⟨fun fn pf hok hx => mapE_prefix_error pre post x e fn pf hok hx,
    fun fn pf hok hx => filterE_prefix_error pre post x e fn pf hok hx,
    fun fn pf hok hx => filterMapE_prefix_error pre post x e fn pf hok hx,
    ?_,
    fun fn pf i hok hx => reduceE_prefix_error pre post x e fn pf hok i hx,
    fun fn pf hok hx => flatMapE_prefix_error pre post x e fn pf hok hx,
    fun fn pf hok hall hx =>
      takeWhileE_prefix_error pre post x e fn pf hok hall hx,
    fun fn pf hok hx => by
      simpa [dedupeE, dedupe] using
        dedupeGoE_prefix_error pre post x e fn pf hok hx []⟩
  intro fn pf i hok hx
  have := scanGoE_prefix_error pre post x e fn pf hok i hx
  simp [scanE, scan, this]

/-- Witness for C3: `map` and `dedupe` with a step function that throws
on the 3rd element of `[1, 2, 3, 4]`. -/
theorem step_failure_amended_witness :
    mapE ([1, 2] ++ 3 :: [4])
      (fun n : Nat =>
        if n = 3 then (Except.error "E" : Except String Nat)
        else .ok (n + 1)) = (map [1, 2] (fun n => n + 1), some "E") ∧
    dedupeE ([1, 2] ++ 3 :: [4])
      (fun n : Nat =>
        if n = 3 then (Except.error "E" : Except String String)
        else .ok (toString n)) =
      (dedupe [1, 2] (fun n => toString n),
        ((dedupe [1, 2] (fun n => toString n)).map
          (fun n => toString n)).reverse, some "E") :=
  ⟨(step_failure_amended (β := Nat) [1, 2] [4] 3 "E").1
      (fun n => if n = 3 then .error "E" else .ok (n + 1)) (fun n => n + 1)
      (by intro a ha; fin_cases ha <;> rfl) rfl,
    (step_failure_amended (β := Nat) [1, 2] [4] 3 "E").2.2.2.2.2.2.2
      (fun n => if n = 3 then .error "E" else .ok (toString n))
      (fun n => toString n) (by intro a ha; fin_cases ha <;> rfl) rfl⟩

/-! ### Claim C10: scan yields the initial accumulator before touching the
accumulator function -/

/-- Resumption states of the `scan`/`scanAsync` generator body: not yet
resumed (about to yield `initial`), inside the loop with the current
accumulator and the remaining upstream elements, or finished. -/
inductive ScanState (A B : Type) : Type
  | start (initial : B) (rest : List A)
  | going (acc : B) (rest : List A)
  | done

/-- One resumption of the `scanAsync` generator body (at `m = Id`, of the
`scan` body): the first resumption runs `let acc = initial; yield acc`,
never touching `fn`; each later resumption takes one upstream element,
awaits `fn`, and yields the updated accumulator. -/
def scanStep {m : Type → Type} [Monad m] {A B : Type} (fn : B → A → m B) :
    ScanState A B → m (Option B × ScanState A B)
  | .start initial rest => pure (some initial, .going initial rest)
  | .going _ [] => pure (none, .done)
  | .going acc (value :: rest) => do
    let acc2 ← fn acc value
    pure (some acc2, .going acc2 rest)
  | .done => pure (none, .done)

/-- C10: `scan` and `scanAsync` yield the initial accumulator in response
to the first pull before invoking the accumulator function at all: the
first element of a (possibly failing) scan drain is always `initial`; when
`fn` throws on the very first upstream element the drain is exactly
`([initial], the failure)`, so the consumer receives `initial` on the
first pull and the failure only on the second; the first resumption of the
generator state machine yields `initial` for every `fn` and every monad,
and with a failing `fn` the failure surfaces exactly at the second
resumption.  On an empty bridged source `scanAsync` still yields
`[initial]`. -/
theorem scan_initial_first_spec :
    (∀ {α : Type u} {β : Type v} {E : Type w} (l : List α)
      (fn : β → α → Except E β) (i : β),
      (scanE l fn i).1.head? = some i) ∧
    (∀ {α : Type u} {β : Type v} {E : Type w} (x : α) (xs : List α)
      (fn : β → α → Except E β) (i : β) (e : E), fn i x = .error e →
      scanE (x :: xs) fn i = ([i], some e)) ∧
    (∀ (m : Type → Type) [Monad m] (A B : Type) (fn : B → A → m B) (i : B)
      (rest : List A),
      scanStep fn (.start i rest) = pure (some i, .going i rest)) ∧
    (∀ (A B E2 : Type) (fn : B → A → Except E2 B) (i : B) (x : A)
      (xs : List A) (e : E2), fn i x = .error e →
      scanStep fn (.going i (x :: xs)) = .error e) ∧
    (∀ (m : Type → Type) [Monad m] [LawfulMonad m] (A B : Type)
      (fn : B → A → m B) (i : B),
      scanAsync ([] : List (m A)) fn i = pure [i]) := by
  refine ⟨fun l fn i => rfl, ?_, fun m im A B fn i rest => rfl, ?_, ?_⟩
  · intro α β E x xs fn i e hx
    simp [scanE, scanGoE, hx]
  · intro A B E2 fn i x xs e hx
    simp [scanStep, hx]
  · intro m im ilm A B fn i
    simp [scanAsync, scanAsyncGo]

/-- Witness for C10: a concrete accumulator that throws on the very first
element still lets the consumer receive the initial accumulator first. -/
theorem scan_initial_first_spec_witness :
    scanE [7, 8] (fun (_ : Nat) (_ : Nat) =>
      (Except.error "E" : Except String Nat)) 0 = ([0], some "E") ∧
    scanStep (fun (_ : Nat) (_ : Nat) =>
      (Except.error "E" : Except String Nat)) (.going 0 [7, 8]) =
      .error "E" :=
  ⟨scan_initial_first_spec.{0, 0, 0}.2.1 7 [8]
      (fun _ _ => (Except.error "E" : Except String Nat)) 0 "E" rfl,
    scan_initial_first_spec.{0, 0, 0}.2.2.2.1 Nat Nat String
      (fun _ _ => .error "E") 0 7 [8] "E" rfl⟩

end Generator
